import Mathlib

/-!
Verification of the MatrixMultiplicationBenchmarking repository.

The development shallowly embeds the two C translation units:

* `matrix_mult.c` — the triple-loop kernel `matrix_multiplication`.
  Buffers are modelled as total functions `Nat → α` (row-major offsets),
  a store to one cell as a pointwise functional update, and each C `for`
  loop as a `List.foldl` over `List.range`.  The kernel is generic in the
  scalar type: the characterisation of the accumulation order holds for
  any interpretation of `0`, `+`, `*` (so in particular for IEEE floats);
  the identification with the mathematical sum is stated over `ℚ`, the
  exact-arithmetic reading of the float values.

* `benchmark.c` — the harness.  Strings are lists of characters;
  `strtol`/`atoi` are modelled exactly (whitespace skip, optional sign,
  longest digit prefix, `0` when no digits); the size-list loop mirrors
  the `strtol`/`strchr` stepping of `main`, including the 64-entry cap.
  The CSV sink is `Option (List Line)`: `none` is a missing file, and a
  `Line` is either the header or a data record carrying the fields that
  are data-flow dependent on the configuration (size and run index); the
  remaining record fields (run id, language tag, timing, CPU, memory) come
  from platform clocks and are opaque to the control flow verified here.
  The PRNG is an abstract draw stream `Nat → ℚ` consumed at an explicit
  cursor, matching the process-global `rand()` sequence after `srand`.
-/

namespace MatrixBench

/-! ## Kernel: matrix_mult.c -/

/-- A store to one cell of a row-major buffer: `C[idx] = v`. -/
def matWrite {α : Type} (C : Nat → α) (idx : Nat) (v : α) : Nat → α :=
  fun m => if m = idx then v else C m

/-- The inner `k` loop of `matrix_multiplication`: starting from
`float acc = 0.0f`, accumulate `acc += A[row + k] * B[k * n + j]` for
`k = 0 .. n-1` in increasing order. -/
def dotAcc {α : Type} [Zero α] [Add α] [Mul α]
    (A B : Nat → α) (n row j : Nat) : α :=
  (List.range n).foldl (fun acc k => acc + A (row + k) * B (k * n + j)) 0

/-- The function `matrix_multiplication(A, B, C, n)` from `matrix_mult.c`: for each row
`i`, with `row = i * n`, for each column `j`, store the accumulated dot
product at `C[row + j]`.  Returns the final contents of the `C` buffer. -/
def matrix_multiplication {α : Type} [Zero α] [Add α] [Mul α]
    (A B C : Nat → α) (n : Nat) : Nat → α :=
  (List.range n).foldl
    (fun Cacc i =>
      (List.range n).foldl
        (fun Cacc j => matWrite Cacc (i * n + j) (dotAcc A B n (i * n) j))
        Cacc)
    C

/-! ## Harness: benchmark.c — configuration parsing -/

/-- C `isspace` in the default locale: space, tab, newline, vertical tab,
form feed, carriage return. -/
def isCSpace (c : Char) : Bool :=
  c == ' ' || c == '\t' || c == '\n' || c == '\x0b' || c == '\x0c' || c == '\r'

/-- Value of the longest digit prefix, accumulated left to right
(the digit-consuming loop inside `strtol`). -/
def digitsVal : List Char → Nat → Nat
  | [], acc => acc
  | c :: cs, acc => if c.isDigit then digitsVal cs (10 * acc + (c.toNat - 48)) else acc

/-- Model of `strtol(s, NULL, 10)`: skip whitespace, read an optional sign, then the
longest digit prefix; `0` when there are no digits.  Modelled over
unbounded integers (the benchmark's inputs stay far from `LONG_MAX`). -/
def strtol (s : List Char) : Int :=
  match s.dropWhile isCSpace with
  | [] => 0
  | c :: cs =>
    if c = '-' then -(digitsVal cs 0 : Int)
    else if c = '+' then (digitsVal cs 0 : Int)
    else (digitsVal (c :: cs) 0 : Int)

/-- The C `atoi` is `strtol` in base 10. -/
def atoi (s : List Char) : Int := strtol s

/-- The size-parsing loop of `main`: while the remaining string is non-empty
and fewer than 64 entries were taken, push `strtol` of the remainder, then
jump past the next comma (`strchr`), stopping when there is none.  The fuel
argument only bounds the recursion; `parseSizes` supplies enough for the
loop to run to completion. -/
def sizesLoop : Nat → List Char → Nat → List Int
  | 0, _, _ => []
  | fuel + 1, s, cnt =>
    if s = [] ∨ 64 ≤ cnt then []
    else
      match s.dropWhile (fun c => c != ',') with
      | [] => [strtol s]
      | _ :: tail => strtol s :: sizesLoop fuel tail (cnt + 1)

/-- Parse `argv[1]` into the size list. -/
def parseSizes (s : List Char) : List Int := sizesLoop (s.length + 1) s 0

/-- The array `sizes_default` from `main`. -/
def defaultSizes : List Int := [64, 128, 256, 512, 1024]

/-- The string `"7,7,…,7,9"` with `k` sevens: a size-list argument with
`k + 1` comma-separated tokens. -/
def commaSevens : Nat → List Char
  | 0 => ['9']
  | k + 1 => '7' :: ',' :: commaSevens k

/-- Resolution of the size list: parse `argv[1]` when present and non-empty
(`argv[1][0]`), and fall back to the default list when no entry was taken.
`args` is `argv[1..]`. -/
def resolveSizes (args : List (List Char)) : List Int :=
  let parsed :=
    match args.get? 0 with
    | some s => if s = [] then [] else parseSizes s
    | none => []
  if parsed = [] then defaultSizes else parsed

/-- Resolution of the run count: `atoi(argv[2])` when present, else 3. -/
def resolveRuns (args : List (List Char)) : Int :=
  match args.get? 1 with
  | some s => atoi s
  | none => 3

/-- Resolution of the output path: `argv[3]` when present, else
`"results_raw.csv"`. -/
def resolveOut (args : List (List Char)) : List Char :=
  match args.get? 2 with
  | some s => s
  | none => "results_raw.csv".data

/-- Resolution of the seed: `atoi(argv[4])` when present, else 27. -/
def resolveSeed (args : List (List Char)) : Int :=
  match args.get? 3 with
  | some s => atoi s
  | none => 27

/-! ## Harness: benchmark.c — sink, PRNG fill and sweep -/

/-- One line of the CSV sink.  A data record keeps the two fields the sweep
control flow determines — matrix size and 1-based run index; the remaining
fields (run id, language tag, time, CPU, memory) are values of platform
accessors, opaque to this development. -/
inductive Line : Type where
  | header : Line
  | entry : Int → Int → Line
deriving DecidableEq

/-- The sink file: `none` when the file does not exist, `some ls` when it
exists with lines `ls` (`some []` is an existing empty file). -/
def write_header_if_needed (f : Option (List Line)) : Option (List Line) :=
  match f with
  | some ls => some ls
  | none => some [Line.header]

/-- One `fopen(out, "a"); fprintf; fclose` append: creates the file when
missing. -/
def appendLine (f : Option (List Line)) (l : Line) : Option (List Line) :=
  match f with
  | some ls => some (ls ++ [l])
  | none => some [l]

/-- Appending a list of lines one at a time. -/
def appendList (f : Option (List Line)) (ls : List Line) : Option (List Line) :=
  ls.foldl appendLine f

/-- The run indices of the inner loop `for (r = 1; r <= runs; ++r)`. -/
def runIndices (runs : Int) : List Int :=
  (List.range runs.toNat).map (fun (k : Nat) => (k : Int) + 1)

/-- The (size, run index) pairs a completed sweep appends, in append
order: size-major, run-minor. -/
def sweepRecords : List Int → Int → List (Int × Int)
  | [], _ => []
  | n :: rest, runs => (runIndices runs).map (fun r => (n, r)) ++ sweepRecords rest runs

/-- The fill loop `for (i = 0; i < n*n; i++) { A[i] = rand()/RAND_MAX;
B[i] = rand()/RAND_MAX; }`.  `draws k` is the value of the `k`-th `rand()`
call divided by `RAND_MAX`; the loop consumes two draws per cell, `A[i]`
first.  Returns the filled `A`, the filled `B` and the new stream cursor.
Generic in the scalar type: the loop only routes draws to cells. -/
def fillPair {α : Type} (draws : Nat → α) (A0 B0 : Nat → α) (p0 : Nat) (nn : Nat) :
    (Nat → α) × (Nat → α) × Nat :=
  (List.range nn).foldl
    (fun st i =>
      (matWrite st.1 i (draws st.2.2), matWrite st.2.1 i (draws (st.2.2 + 1)),
        st.2.2 + 2))
    (A0, B0, p0)

/-- Harness state threaded through the sweep: the sink file, the PRNG
stream cursor, and the number of kernel invocations so far. -/
structure HState : Type where
  file : Option (List Line)
  pos : Nat
  invocations : Nat
deriving DecidableEq

/-- The per-size run loop: each iteration invokes the kernel once and
appends one data record. -/
def doRuns (runs : Int) (n : Int) (st : HState) : HState :=
  (runIndices runs).foldl
    (fun st r =>
      { st with
        invocations := st.invocations + 1
        file := appendLine st.file (Line.entry n r) })
    st

/-- One size iteration of the main loop: allocate and fill `A`, `B`
(advancing the PRNG cursor by two draws per cell), then perform the runs.
The freshly allocated buffers start from arbitrary (`malloc`) contents;
zero stands in, as nothing downstream of the fill reads them. -/
def doSize (draws : Nat → ℚ) (runs : Int) (st : HState) (n : Int) : HState :=
  let filled := fillPair draws (fun _ => 0) (fun _ => 0) st.pos ((n * n).toNat)
  doRuns runs n { st with pos := filled.2.2 }

/-- The main benchmarking loop over all sizes. -/
def runSweep (draws : Nat → ℚ) (sizes : List Int) (runs : Int) (st : HState) : HState :=
  sizes.foldl (doSize draws runs) st

/-- The whole of `main`: resolve the configuration, prepare the sink
header, run the sweep, return 0.  `draws` abstracts the `rand()` stream
fixed by `srand(seed)`; `f0` is the sink file found on disk. -/
def mainModel (draws : Nat → ℚ) (args : List (List Char)) (f0 : Option (List Line)) :
    HState × Int :=
  let sizes := resolveSizes args
  let runs := resolveRuns args
  let f1 := write_header_if_needed f0
  (runSweep draws sizes runs { file := f1, pos := 0, invocations := 0 }, 0)

/-! ## Concrete example data (the 2×2 example of matrix_mult.h) -/

/-- The 2×2 example matrix `A = [[1,2],[3,4]]` in row-major order. -/
def exA : Nat → ℚ := fun m => [1, 2, 3, 4].getD m 0

/-- The 2×2 example matrix `B = [[5,6],[7,8]]` in row-major order. -/
def exB : Nat → ℚ := fun m => [5, 6, 7, 8].getD m 0

/-- An all-zero initial output buffer. -/
def exC0 : Nat → ℚ := fun _ => 0

/-- A second, different initial output buffer. -/
def exD : Nat → ℚ := fun _ => 9

/-! ## Kernel lemmas -/

theorem matWrite_same {α : Type} (C : Nat → α) (idx : Nat) (v : α) :
    matWrite C idx v idx = v := by
  simp [matWrite]

theorem matWrite_other {α : Type} (C : Nat → α) (idx m : Nat) (v : α)
    (h : m ≠ idx) : matWrite C idx v m = C m := by
  simp [matWrite, h]

/-- A fold writing `w j` at offset `row + j` for `j = 0..m-1` ends with
`w j` at offset `row + j`. -/
theorem foldWrite_get_lt {α : Type} (w : Nat → α) (row : Nat) :
    ∀ (m : Nat) (C : Nat → α) (j : Nat), j < m →
      ((List.range m).foldl (fun Cacc j => matWrite Cacc (row + j) (w j)) C) (row + j)
        = w j := by
  intro m
  induction m with
  | zero => intro C j hj; omega
  | succ m ih =>
    intro C j hj
    rw [List.range_succ, List.foldl_append]
    simp only [List.foldl_cons, List.foldl_nil]
    rcases Nat.lt_succ_iff_lt_or_eq.mp hj with h | h
    · rw [matWrite_other _ _ _ _ (by omega)]
      exact ih C j h
    · subst h
      exact matWrite_same _ _ _

/-- The same fold leaves every offset outside `[row, row + m)` unchanged. -/
theorem foldWrite_get_out {α : Type} (w : Nat → α) (row : Nat) :
    ∀ (m : Nat) (C : Nat → α) (x : Nat), x < row ∨ row + m ≤ x →
      ((List.range m).foldl (fun Cacc j => matWrite Cacc (row + j) (w j)) C) x
        = C x := by
  intro m
  induction m with
  | zero => intro C x _; rfl
  | succ m ih =>
    intro C x hx
    rw [List.range_succ, List.foldl_append]
    simp only [List.foldl_cons, List.foldl_nil]
    rw [matWrite_other _ _ _ _ (by omega)]
    exact ih C x (by omega)

/-- After the first `m ≤ n` iterations of the outer row loop, every cell
`(i, j)` with `i < m` holds its accumulated dot product. -/
theorem mm_partial_get {α : Type} [Zero α] [Add α] [Mul α] (A B : Nat → α) (n : Nat) :
    ∀ (m : Nat) (C : Nat → α) (i j : Nat), i < m → m ≤ n → j < n →
      ((List.range m).foldl
          (fun Cacc i =>
            (List.range n).foldl
              (fun Cacc j => matWrite Cacc (i * n + j) (dotAcc A B n (i * n) j)) Cacc)
          C) (i * n + j)
        = dotAcc A B n (i * n) j := by
  intro m
  induction m with
  | zero => intro C i j hi _ _; omega
  | succ m ih =>
    intro C i j hi hm hj
    rw [List.range_succ, List.foldl_append]
    simp only [List.foldl_cons, List.foldl_nil]
    rcases Nat.lt_succ_iff_lt_or_eq.mp hi with h | h
    · have hout : i * n + j < m * n ∨ m * n + n ≤ i * n + j := by
        left
        calc i * n + j < i * n + n := by omega
          _ = (i + 1) * n := by ring
          _ ≤ m * n := Nat.mul_le_mul_right n h
      have h1 := foldWrite_get_out (fun j => dotAcc A B n (m * n) j) (m * n) n
        ((List.range m).foldl
          (fun Cacc i =>
            (List.range n).foldl
              (fun Cacc j => matWrite Cacc (i * n + j) (dotAcc A B n (i * n) j)) Cacc)
          C) (i * n + j) hout
      exact h1.trans (ih C i j h (by omega) hj)
    · subst h
      exact foldWrite_get_lt (fun j => dotAcc A B n (i * n) j) (i * n) n _ j hj

/-- The first `m ≤ n` iterations of the outer row loop write nothing at or
beyond offset `n * n`. -/
theorem mm_partial_frame {α : Type} [Zero α] [Add α] [Mul α] (A B : Nat → α) (n : Nat) :
    ∀ (m : Nat) (C : Nat → α) (x : Nat), m ≤ n → n * n ≤ x →
      ((List.range m).foldl
          (fun Cacc i =>
            (List.range n).foldl
              (fun Cacc j => matWrite Cacc (i * n + j) (dotAcc A B n (i * n) j)) Cacc)
          C) x
        = C x := by
  intro m
  induction m with
  | zero => intro C x _ _; rfl
  | succ m ih =>
    intro C x hm hx
    rw [List.range_succ, List.foldl_append]
    simp only [List.foldl_cons, List.foldl_nil]
    have hout : x < m * n ∨ m * n + n ≤ x := by
      right
      calc m * n + n = (m + 1) * n := by ring
        _ ≤ n * n := Nat.mul_le_mul_right n hm
        _ ≤ x := hx
    have h1 := foldWrite_get_out (fun j => dotAcc A B n (m * n) j) (m * n) n
      ((List.range m).foldl
        (fun Cacc i =>
          (List.range n).foldl
            (fun Cacc j => matWrite Cacc (i * n + j) (dotAcc A B n (i * n) j)) Cacc)
        C) x hout
    exact h1.trans (ih C x (by omega) hx)

/-- Left-to-right accumulation of `f` over `0..n-1` equals the finite sum. -/
theorem foldl_add_sum (f : Nat → ℚ) :
    ∀ (n : Nat) (a : ℚ),
      (List.range n).foldl (fun acc k => acc + f k) a = a + ∑ k ∈ Finset.range n, f k := by
  intro n
  induction n with
  | zero => intro a; simp
  | succ n ih =>
    intro a
    rw [List.range_succ, List.foldl_append, Finset.sum_range_succ]
    simp only [List.foldl_cons, List.foldl_nil]
    rw [ih a]
    ring

/-! ## Claim theorems: kernel -/

/-- C1: for every n ≥ 0 and n×n row-major matrices A, B,
`matrix_multiplication(A, B, C, n)` overwrites C so that for all
i, j < n the cell at offset `i*n+j` equals the sum over k = 0..n-1 of
`A[i*n+k] * B[k*n+j]`, accumulated into a single scalar in strictly
increasing k order.  The first conjunct states the accumulation order for
an arbitrary interpretation of the scalar operations; the second
identifies the result with the mathematical sum over exact arithmetic. -/
theorem C1_kernel_computes_rowmajor_dotproducts
    {α : Type} [Zero α] [Add α] [Mul α]
    (A B C : Nat → α) (Aq Bq Cq : Nat → ℚ) (n i j : Nat)
    (hi : i < n) (hj : j < n) :
    matrix_multiplication A B C n (i * n + j)
        = (List.range n).foldl (fun acc k => acc + A (i * n + k) * B (k * n + j)) 0
      ∧ matrix_multiplication Aq Bq Cq n (i * n + j)
        = ∑ k ∈ Finset.range n, Aq (i * n + k) * Bq (k * n + j) := by
  constructor
  · exact mm_partial_get A B n n C i j hi le_rfl hj
  · have h1 := mm_partial_get Aq Bq n n Cq i j hi le_rfl hj
    have h2 := foldl_add_sum (fun k => Aq (i * n + k) * Bq (k * n + j)) n 0
    rw [zero_add] at h2
    exact h1.trans h2

theorem C1_kernel_computes_rowmajor_dotproducts_witness :
    (0 : Nat) < 2 ∧ (1 : Nat) < 2 ∧
      (matrix_multiplication exA exB exC0 2 (0 * 2 + 1)
          = (List.range 2).foldl (fun acc k => acc + exA (0 * 2 + k) * exB (k * 2 + 1)) 0
        ∧ matrix_multiplication exA exB exC0 2 (0 * 2 + 1)
          = ∑ k ∈ Finset.range 2, exA (0 * 2 + k) * exB (k * 2 + 1)) :=
  ⟨by decide, by decide,
    C1_kernel_computes_rowmajor_dotproducts exA exB exC0 exA exB exC0 2 0 1
      (by decide) (by decide)⟩

/-- C7: the kernel is total and write-bounded at the boundary: for n = 0 it
leaves C unchanged; for n = 1 it terminates writing exactly
`C[0] = A[0] * B[0]` and no other cell. -/
theorem C7_boundary_n0_n1 (A B C : Nat → ℚ) :
    matrix_multiplication A B C 0 = C
    ∧ matrix_multiplication A B C 1 0 = A 0 * B 0
    ∧ ∀ m : Nat, m ≠ 0 → matrix_multiplication A B C 1 m = C m := by
  refine ⟨rfl, ?_, ?_⟩
  · simp [matrix_multiplication, dotAcc, matWrite, List.range_succ]
  · intro m hm
    simp [matrix_multiplication, dotAcc, matWrite, List.range_succ, hm]

theorem C7_boundary_n0_n1_witness :
    matrix_multiplication exA exB exC0 0 = exC0
    ∧ matrix_multiplication exA exB exC0 1 0 = exA 0 * exB 0
    ∧ ((1 : Nat) ≠ 0 ∧ matrix_multiplication exA exB exC0 1 1 = exC0 1) := by
  obtain ⟨h1, h2, h3⟩ := C7_boundary_n0_n1 exA exB exC0
  exact ⟨h1, h2, by decide, h3 1 (by decide)⟩

/-- C8: the kernel is deterministic and has no effect beyond the output
buffer: the produced contents of the n×n buffer (offsets < n*n) depend only
on A, B and n — two invocations differing only in the prior contents of C
agree there — and every offset at or beyond n*n is left unchanged. -/
theorem C8_kernel_deterministic_write_bounded (n : Nat) (A B C D : Nat → ℚ) :
    (∀ m : Nat, m < n * n →
        matrix_multiplication A B C n m = matrix_multiplication A B D n m)
    ∧ ∀ m : Nat, n * n ≤ m → matrix_multiplication A B C n m = C m := by
  constructor
  · intro m hm
    have hn : 0 < n := by
      rcases Nat.eq_zero_or_pos n with h | h
      · subst h; omega
      · exact h
    have hi : m / n < n := (Nat.div_lt_iff_lt_mul hn).mpr hm
    have hj : m % n < n := Nat.mod_lt m hn
    have hdecomp : m / n * n + m % n = m := by
      rw [Nat.mul_comm]
      exact Nat.div_add_mod m n
    calc matrix_multiplication A B C n m
        = matrix_multiplication A B C n (m / n * n + m % n) := by rw [hdecomp]
      _ = dotAcc A B n (m / n * n) (m % n) :=
          mm_partial_get A B n n C (m / n) (m % n) hi le_rfl hj
      _ = matrix_multiplication A B D n (m / n * n + m % n) :=
          (mm_partial_get A B n n D (m / n) (m % n) hi le_rfl hj).symm
      _ = matrix_multiplication A B D n m := by rw [hdecomp]
  · intro m hm
    exact mm_partial_frame A B n n C m le_rfl hm

theorem C8_kernel_deterministic_write_bounded_witness :
    ((3 : Nat) < 2 * 2
      ∧ matrix_multiplication exA exB exC0 2 3 = matrix_multiplication exA exB exD 2 3)
    ∧ ((2 * 2 : Nat) ≤ 4 ∧ matrix_multiplication exA exB exC0 2 4 = exC0 4) := by
  obtain ⟨h1, h2⟩ := C8_kernel_deterministic_write_bounded 2 exA exB exC0 exD
  exact ⟨⟨by decide, h1 3 (by decide)⟩, by decide, h2 4 (by decide)⟩

/-! ## Fill-loop lemmas -/

/-- One more fill iteration: cell `nn` of A takes the draw at the cursor,
cell `nn` of B the next one, and the cursor advances by two. -/
theorem fillPair_succ {α : Type} (draws : Nat → α) (A0 B0 : Nat → α) (p0 nn : Nat) :
    fillPair draws A0 B0 p0 (nn + 1)
      = (matWrite (fillPair draws A0 B0 p0 nn).1 nn
            (draws (fillPair draws A0 B0 p0 nn).2.2),
          matWrite (fillPair draws A0 B0 p0 nn).2.1 nn
            (draws ((fillPair draws A0 B0 p0 nn).2.2 + 1)),
          (fillPair draws A0 B0 p0 nn).2.2 + 2) := by
  unfold fillPair
  rw [List.range_succ, List.foldl_append]
  rfl

/-- The fill loop advances the stream cursor by exactly two draws per
cell. -/
theorem fillPair_pos {α : Type} (draws : Nat → α) (A0 B0 : Nat → α) (p0 : Nat) :
    ∀ nn : Nat, (fillPair draws A0 B0 p0 nn).2.2 = p0 + 2 * nn := by
  intro nn
  induction nn with
  | zero => rfl
  | succ nn ih =>
    rw [fillPair_succ]
    show (fillPair draws A0 B0 p0 nn).2.2 + 2 = p0 + 2 * (nn + 1)
    omega

/-- Cell `k` of A holds draw `p0 + 2k`, cell `k` of B draw `p0 + 2k + 1`. -/
theorem fillPair_get {α : Type} (draws : Nat → α) (A0 B0 : Nat → α) (p0 : Nat) :
    ∀ (nn k : Nat), k < nn →
      (fillPair draws A0 B0 p0 nn).1 k = draws (p0 + 2 * k)
      ∧ (fillPair draws A0 B0 p0 nn).2.1 k = draws (p0 + 2 * k + 1) := by
  intro nn
  induction nn with
  | zero => intro k hk; omega
  | succ nn ih =>
    intro k hk
    rcases Nat.lt_succ_iff_lt_or_eq.mp hk with h | h
    · constructor
      · rw [fillPair_succ]
        show matWrite (fillPair draws A0 B0 p0 nn).1 nn _ k = _
        rw [matWrite_other _ _ _ _ (by omega)]
        exact (ih k h).1
      · rw [fillPair_succ]
        show matWrite (fillPair draws A0 B0 p0 nn).2.1 nn _ k = _
        rw [matWrite_other _ _ _ _ (by omega)]
        exact (ih k h).2
    · subst h
      constructor
      · rw [fillPair_succ]
        show matWrite (fillPair draws A0 B0 p0 k).1 k _ k = _
        rw [matWrite_same, fillPair_pos]
      · rw [fillPair_succ]
        show matWrite (fillPair draws A0 B0 p0 k).2.1 k _ k = _
        rw [matWrite_same, fillPair_pos]

/-! ## Claim theorems: PRNG fill order -/

/-- C2 counterexample: the claim puts draw k in A[k] for every k < n·n
(A filled completely before B).  At n = 2 with the identity draw stream,
the code stores draw 2 — not draw 1 — in A[1], and stores draw 1 — not
draw n·n = 4 — in B[0]. -/
theorem C2_counterexample_fill_is_interleaved :
    (fillPair (fun p => p) (fun _ => 0) (fun _ => 0) 0 (2 * 2)).1 1 ≠ 1
      ∧ (fillPair (fun p => p) (fun _ => 0) (fun _ => 0) 0 (2 * 2)).2.1 0 ≠ 2 * 2 + 0 := by
  refine ⟨?_, ?_⟩ <;> decide

/-- C2 amended: the per-size fill consumes the PRNG stream interleaved per
cell in row-major order: starting from cursor p0, cell k of A receives
draw p0 + 2k and cell k of B receives draw p0 + 2k + 1, and the fill
advances the cursor by 2·n·n draws. -/
theorem C2_fill_consumes_draws_interleaved
    {α : Type} (draws : Nat → α) (A0 B0 : Nat → α) (p0 nn k : Nat) (hk : k < nn) :
    (fillPair draws A0 B0 p0 nn).1 k = draws (p0 + 2 * k)
    ∧ (fillPair draws A0 B0 p0 nn).2.1 k = draws (p0 + 2 * k + 1)
    ∧ (fillPair draws A0 B0 p0 nn).2.2 = p0 + 2 * nn :=
  ⟨(fillPair_get draws A0 B0 p0 nn k hk).1,
    (fillPair_get draws A0 B0 p0 nn k hk).2,
    fillPair_pos draws A0 B0 p0 nn⟩

theorem C2_fill_consumes_draws_interleaved_witness :
    (1 : Nat) < 2 * 2 ∧
      ((fillPair (fun p => p) (fun _ => 0) (fun _ => 0) 0 (2 * 2)).1 1 = (fun p => p) (0 + 2 * 1)
        ∧ (fillPair (fun p => p) (fun _ => 0) (fun _ => 0) 0 (2 * 2)).2.1 1
          = (fun p => p) (0 + 2 * 1 + 1)
        ∧ (fillPair (fun (p : Nat) => p) (fun _ => 0) (fun _ => 0) 0 (2 * 2)).2.2
          = 0 + 2 * (2 * 2)) :=
  ⟨by decide,
    C2_fill_consumes_draws_interleaved (fun p => p) (fun _ => 0) (fun _ => 0)
      0 (2 * 2) 1 (by decide)⟩

/-! ## Sink and sweep lemmas -/

theorem appendList_some : ∀ (ls : List Line) (xs : List Line),
    appendList (some xs) ls = some (xs ++ ls) := by
  intro ls
  induction ls with
  | nil => intro xs; simp [appendList]
  | cons l ls ih =>
    intro xs
    show appendList (appendLine (some xs) l) ls = _
    rw [show appendLine (some xs) l = some (xs ++ [l]) from rfl, ih (xs ++ [l])]
    simp

theorem appendList_append (f : Option (List Line)) (a b : List Line) :
    appendList f (a ++ b) = appendList (appendList f a) b := by
  simp [appendList, List.foldl_append]

/-- The run loop appends one record per run index in order, leaves the
stream cursor alone, and performs one kernel invocation per record. -/
theorem foldRuns_spec (n : Int) : ∀ (l : List Int) (st : HState),
    (l.foldl
        (fun st r =>
          { st with
            invocations := st.invocations + 1
            file := appendLine st.file (Line.entry n r) })
        st).file
      = appendList st.file (l.map (Line.entry n))
    ∧ (l.foldl
        (fun st r =>
          { st with
            invocations := st.invocations + 1
            file := appendLine st.file (Line.entry n r) })
        st).pos
      = st.pos
    ∧ (l.foldl
        (fun st r =>
          { st with
            invocations := st.invocations + 1
            file := appendLine st.file (Line.entry n r) })
        st).invocations
      = st.invocations + l.length := by
  intro l
  induction l with
  | nil => intro st; exact ⟨rfl, rfl, rfl⟩
  | cons r l ih =>
    intro st
    obtain ⟨h1, h2, h3⟩ := ih
      { st with
        invocations := st.invocations + 1
        file := appendLine st.file (Line.entry n r) }
    simp only [List.foldl_cons]
    refine ⟨h1, h2, ?_⟩
    rw [h3]
    simp
    omega

theorem doRuns_spec (runs : Int) (n : Int) (st : HState) :
    (doRuns runs n st).file = appendList st.file ((runIndices runs).map (Line.entry n))
    ∧ (doRuns runs n st).pos = st.pos
    ∧ (doRuns runs n st).invocations = st.invocations + runs.toNat := by
  obtain ⟨h1, h2, h3⟩ := foldRuns_spec n (runIndices runs) st
  refine ⟨h1, h2, h3.trans ?_⟩
  have hlen : (runIndices runs).length = runs.toNat := by
    show ((List.range runs.toNat).map (fun (k : Nat) => (k : Int) + 1)).length = runs.toNat
    rw [List.length_map, List.length_range]
  rw [hlen]

theorem doSize_spec (draws : Nat → ℚ) (runs : Int) (st : HState) (n : Int) :
    (doSize draws runs st n).file
      = appendList st.file ((runIndices runs).map (Line.entry n))
    ∧ (doSize draws runs st n).pos = st.pos + 2 * (n * n).toNat
    ∧ (doSize draws runs st n).invocations = st.invocations + runs.toNat := by
  unfold doSize
  obtain ⟨h1, h2, h3⟩ := doRuns_spec runs n
    { st with pos := (fillPair draws (fun _ => 0) (fun _ => 0) st.pos ((n * n).toNat)).2.2 }
  exact ⟨h1, h2.trans (fillPair_pos draws (fun _ => 0) (fun _ => 0) st.pos ((n * n).toNat)), h3⟩

/-- A size block of `sweepRecords`, as sink lines. -/
theorem sweepRecords_cons_map (n : Int) (rest : List Int) (runs : Int) :
    (sweepRecords (n :: rest) runs).map (fun p => Line.entry p.1 p.2)
      = (runIndices runs).map (Line.entry n)
        ++ (sweepRecords rest runs).map (fun p => Line.entry p.1 p.2) := by
  show ((runIndices runs).map (fun r => (n, r)) ++ sweepRecords rest runs).map
      (fun p => Line.entry p.1 p.2) = _
  rw [List.map_append, List.map_map]
  rfl

/-- The sweep appends exactly the records of `sweepRecords` in order,
advances the PRNG cursor by 2·n·n draws per size, and invokes the kernel
`runs` times per size. -/
theorem runSweep_spec (draws : Nat → ℚ) (runs : Int) :
    ∀ (sizes : List Int) (st : HState),
      (runSweep draws sizes runs st).file
        = appendList st.file ((sweepRecords sizes runs).map (fun p => Line.entry p.1 p.2))
      ∧ (runSweep draws sizes runs st).pos
        = st.pos + (sizes.map (fun n => 2 * (n * n).toNat)).sum
      ∧ (runSweep draws sizes runs st).invocations
        = st.invocations + sizes.length * runs.toNat := by
  intro sizes
  induction sizes with
  | nil =>
    intro st
    refine ⟨rfl, ?_, ?_⟩ <;> simp [runSweep, sweepRecords]
  | cons n rest ih =>
    intro st
    obtain ⟨d1, d2, d3⟩ := doSize_spec draws runs st n
    obtain ⟨h1, h2, h3⟩ := ih (doSize draws runs st n)
    refine ⟨?_, ?_, ?_⟩
    · show (runSweep draws rest runs (doSize draws runs st n)).file = _
      rw [h1, d1, sweepRecords_cons_map, appendList_append]
    · show (runSweep draws rest runs (doSize draws runs st n)).pos = _
      rw [h2, d2]
      simp
      omega
    · show (runSweep draws rest runs (doSize draws runs st n)).invocations = _
      rw [h3, d3]
      simp
      ring

theorem runIndices_length (runs : Int) : (runIndices runs).length = runs.toNat := by
  show ((List.range runs.toNat).map (fun (k : Nat) => (k : Int) + 1)).length = runs.toNat
  rw [List.length_map, List.length_range]

theorem runIndices_getElem (runs : Int) (k : Nat) (hk : k < runs.toNat) :
    (runIndices runs)[k]? = some ((k : Int) + 1) := by
  show ((List.range runs.toNat).map (fun (j : Nat) => (j : Int) + 1))[k]? = _
  rw [List.getElem?_map, List.getElem?_range hk]
  rfl

theorem sweepRecords_length (runs : Int) :
    ∀ S : List Int, (sweepRecords S runs).length = S.length * runs.toNat := by
  intro S
  induction S with
  | nil => simp [sweepRecords]
  | cons n rest ih =>
    show ((runIndices runs).map (fun r => (n, r)) ++ sweepRecords rest runs).length = _
    rw [List.length_append, List.length_map, runIndices_length, ih]
    show runs.toNat + rest.length * runs.toNat = (rest.length + 1) * runs.toNat
    ring

/-- The record at position `si * runs + k` of a sweep is run `k + 1` of
the `si`-th configured size: size-major, run-minor, 1-based. -/
theorem sweepRecords_getElem (runs : Int) :
    ∀ (S : List Int) (si k : Nat), si < S.length → k < runs.toNat →
      (sweepRecords S runs)[si * runs.toNat + k]?
        = some (S.getD si 0, (k : Int) + 1) := by
  intro S
  induction S with
  | nil => intro si k h _; simp at h
  | cons n rest ih =>
    intro si k hsi hk
    cases si with
    | zero =>
      show ((runIndices runs).map (fun r => (n, r)) ++ sweepRecords rest runs)[0 * runs.toNat + k]?
        = _
      have hidx : 0 * runs.toNat + k = k := by omega
      rw [hidx, List.getElem?_append_left (by rw [List.length_map, runIndices_length]; exact hk),
        List.getElem?_map, runIndices_getElem runs k hk]
      rfl
    | succ si =>
      show ((runIndices runs).map (fun r => (n, r)) ++ sweepRecords rest runs)[(si + 1) * runs.toNat + k]?
        = _
      have hlen : ((runIndices runs).map (fun r => (n, r))).length = runs.toNat := by
        rw [List.length_map, runIndices_length]
      have hge : ((runIndices runs).map (fun r => (n, r))).length ≤ (si + 1) * runs.toNat + k := by
        rw [hlen, Nat.succ_mul]
        omega
      rw [List.getElem?_append_right hge, hlen]
      have hidx : (si + 1) * runs.toNat + k - runs.toNat = si * runs.toNat + k := by
        rw [Nat.succ_mul]
        omega
      rw [hidx]
      exact ih si k (by simpa using hsi) hk

/-! ## Claim theorems: sweep record layout -/

/-- C3: a completed sweep appends exactly `runs` records per size —
`|S| * runs` data lines after the single header line — and the record at
position `si * runs + k` (0-based, after the header) is run `k + 1` of
size `S[si]`: size-major, run-minor, with 1-based run indices. -/
theorem C3_sweep_record_count_and_order (S : List Int) (runs : Int) (draws : Nat → ℚ)
    (h : 1 ≤ runs) :
    (sweepRecords S runs).length = S.length * runs.toNat
    ∧ (∀ si k : Nat, si < S.length → k < runs.toNat →
        (sweepRecords S runs)[si * runs.toNat + k]? = some (S.getD si 0, (k : Int) + 1))
    ∧ (runSweep draws S runs
          { file := write_header_if_needed none, pos := 0, invocations := 0 }).file
        = some (Line.header :: (sweepRecords S runs).map (fun p => Line.entry p.1 p.2)) := by
  refine ⟨sweepRecords_length runs S,
    fun si k hsi hk => sweepRecords_getElem runs S si k hsi hk, ?_⟩
  obtain ⟨h1, _, _⟩ := runSweep_spec draws runs S
    { file := write_header_if_needed none, pos := 0, invocations := 0 }
  rw [h1]
  show appendList (some [Line.header]) _ = _
  rw [appendList_some]
  rfl

theorem C3_sweep_record_count_and_order_witness :
    (1 : Int) ≤ 2
    ∧ (sweepRecords [4, 8] 2).length = [4, 8].length * (2 : Int).toNat
    ∧ ((1 : Nat) < [4, 8].length ∧ (0 : Nat) < (2 : Int).toNat
        ∧ (sweepRecords [4, 8] 2)[1 * (2 : Int).toNat + 0]?
          = some ([4, 8].getD 1 0, (0 : Int) + 1))
    ∧ (runSweep (fun _ => 0) [4, 8] 2
          { file := write_header_if_needed none, pos := 0, invocations := 0 }).file
        = some (Line.header :: (sweepRecords [4, 8] 2).map (fun p => Line.entry p.1 p.2)) := by
  obtain ⟨h1, h2, h3⟩ := C3_sweep_record_count_and_order [4, 8] 2 (fun _ => 0) (by decide)
  exact ⟨by decide, h1, ⟨by decide, by decide, h2 1 0 (by decide) (by decide)⟩, h3⟩

/-- C6: sink preparation is idempotent on existing non-empty files: a
second `write_header_if_needed` on the same existing file changes nothing,
and the first one already left the existing content untouched. -/
theorem C6_header_idempotent_on_existing (ls : List Line) (h : ls ≠ []) :
    write_header_if_needed (write_header_if_needed (some ls))
        = write_header_if_needed (some ls)
    ∧ write_header_if_needed (some ls) = some ls :=
  ⟨rfl, rfl⟩

theorem C6_header_idempotent_on_existing_witness :
    [Line.entry 4 1] ≠ ([] : List Line)
    ∧ (write_header_if_needed (write_header_if_needed (some [Line.entry 4 1]))
          = write_header_if_needed (some [Line.entry 4 1])
        ∧ write_header_if_needed (some [Line.entry 4 1]) = some [Line.entry 4 1]) :=
  ⟨by decide, C6_header_idempotent_on_existing [Line.entry 4 1] (by decide)⟩

/-- C9: `write_header_if_needed` writes the header only when the file does
not exist; on a pre-existing empty file it writes nothing, and the
subsequent sweep appends its records to the headerless file — none of the
appended lines is the header. -/
theorem C9_empty_existing_file_gets_no_header (draws : Nat → ℚ) (sizes : List Int)
    (runs : Int) :
    write_header_if_needed none = some [Line.header]
    ∧ write_header_if_needed (some []) = some []
    ∧ (runSweep draws sizes runs
          { file := write_header_if_needed (some []), pos := 0, invocations := 0 }).file
        = some ((sweepRecords sizes runs).map (fun p => Line.entry p.1 p.2))
    ∧ Line.header ∉ (sweepRecords sizes runs).map (fun p => Line.entry p.1 p.2) := by
  refine ⟨rfl, rfl, ?_, ?_⟩
  · obtain ⟨h1, _, _⟩ := runSweep_spec draws runs sizes
      { file := write_header_if_needed (some []), pos := 0, invocations := 0 }
    rw [h1]
    show appendList (some []) _ = _
    rw [appendList_some]
    rfl
  · simp [List.mem_map]

/-- C10: when the resolved run count is 0 or negative, the harness still
writes the header and still performs every per-size fill (consuming
2·n·n draws per size), but invokes the kernel zero times, appends zero
data records, and exits with status 0. -/
theorem C10_nonpositive_runs_header_fill_no_records
    (draws : Nat → ℚ) (args : List (List Char)) (f0 : Option (List Line))
    (h : resolveRuns args ≤ 0) :
    sweepRecords (resolveSizes args) (resolveRuns args) = []
    ∧ (mainModel draws args f0).1.file = write_header_if_needed f0
    ∧ write_header_if_needed none = some [Line.header]
    ∧ (mainModel draws args f0).1.invocations = 0
    ∧ (mainModel draws args f0).1.pos
        = ((resolveSizes args).map (fun n => 2 * (n * n).toNat)).sum
    ∧ (mainModel draws args f0).2 = 0 := by
  have hz : (resolveRuns args).toNat = 0 := Int.toNat_of_nonpos h
  have hempty : ∀ S : List Int, sweepRecords S (resolveRuns args) = [] := by
    intro S
    induction S with
    | nil => rfl
    | cons n rest ih =>
      show (runIndices (resolveRuns args)).map (fun r => (n, r))
          ++ sweepRecords rest (resolveRuns args) = []
      have hri : runIndices (resolveRuns args) = [] := by
        show (List.range (resolveRuns args).toNat).map (fun (k : Nat) => (k : Int) + 1) = []
        rw [hz]
        rfl
      rw [hri, ih]
      rfl
  obtain ⟨h1, h2, h3⟩ := runSweep_spec draws (resolveRuns args) (resolveSizes args)
    { file := write_header_if_needed f0, pos := 0, invocations := 0 }
  refine ⟨hempty _, ?_, rfl, ?_, ?_, rfl⟩
  · show (runSweep draws (resolveSizes args) (resolveRuns args)
        { file := write_header_if_needed f0, pos := 0, invocations := 0 }).file = _
    rw [h1, hempty]
    rfl
  · show (runSweep draws (resolveSizes args) (resolveRuns args)
        { file := write_header_if_needed f0, pos := 0, invocations := 0 }).invocations = 0
    rw [h3, hz]
    simp
  · show (runSweep draws (resolveSizes args) (resolveRuns args)
        { file := write_header_if_needed f0, pos := 0, invocations := 0 }).pos = _
    rw [h2]
    simp

theorem C10_nonpositive_runs_header_fill_no_records_witness :
    resolveRuns [['4'], ['0']] ≤ 0
    ∧ (sweepRecords (resolveSizes [['4'], ['0']]) (resolveRuns [['4'], ['0']]) = []
        ∧ (mainModel (fun _ => 0) [['4'], ['0']] none).1.file = write_header_if_needed none
        ∧ write_header_if_needed none = some [Line.header]
        ∧ (mainModel (fun _ => 0) [['4'], ['0']] none).1.invocations = 0
        ∧ (mainModel (fun _ => 0) [['4'], ['0']] none).1.pos
          = ((resolveSizes [['4'], ['0']]).map (fun n => 2 * (n * n).toNat)).sum
        ∧ (mainModel (fun _ => 0) [['4'], ['0']] none).2 = 0) :=
  ⟨by decide,
    C10_nonpositive_runs_header_fill_no_records (fun _ => 0) [['4'], ['0']] none (by decide)⟩

/-! ## Parsing lemmas -/

/-- The size loop never takes more than `64 - cnt` further entries. -/
theorem sizesLoop_length : ∀ (fuel : Nat) (s : List Char) (cnt : Nat),
    (sizesLoop fuel s cnt).length ≤ 64 - cnt := by
  intro fuel
  induction fuel with
  | zero => intro s cnt; simp [sizesLoop]
  | succ fuel ih =>
    intro s cnt
    simp only [sizesLoop]
    split
    · simp
    · rename_i hcond
      have hc : cnt < 64 := by
        rcases Nat.lt_or_ge cnt 64 with h | h
        · exact h
        · exact absurd (Or.inr h) hcond
      split
      · simp
        omega
      · rename_i x tail heq
        simp only [List.length_cons]
        have := ih tail (cnt + 1)
        omega

/-- The digit scan stops at a comma, so appending `,rest` after a token
does not change its value. -/
theorem digitsVal_append_comma : ∀ (u rest : List Char) (acc : Nat),
    digitsVal (u ++ ',' :: rest) acc = digitsVal u acc := by
  intro u
  induction u with
  | nil =>
    intro rest acc
    show digitsVal (',' :: rest) acc = acc
    simp [digitsVal]
  | cons c u ih =>
    intro rest acc
    show digitsVal (c :: (u ++ ',' :: rest)) acc = digitsVal (c :: u) acc
    by_cases h : c.isDigit
    · simp [digitsVal, h, ih]
    · simp [digitsVal, h]

/-- Reading a token with `strtol` gives the same value whether or not
`,rest` follows it. -/
theorem strtol_append_comma : ∀ (t rest : List Char),
    strtol (t ++ ',' :: rest) = strtol t := by
  intro t
  induction t with
  | nil =>
    intro rest
    show strtol (',' :: rest) = strtol []
    simp [strtol, List.dropWhile_cons, isCSpace, digitsVal]
  | cons c t ih =>
    intro rest
    show strtol (c :: (t ++ ',' :: rest)) = strtol (c :: t)
    by_cases hsp : isCSpace c
    · have h1 : strtol (c :: (t ++ ',' :: rest)) = strtol (t ++ ',' :: rest) := by
        simp [strtol, List.dropWhile_cons, hsp]
      have h2 : strtol (c :: t) = strtol t := by
        simp [strtol, List.dropWhile_cons, hsp]
      rw [h1, h2, ih]
    · have h1 : (c :: (t ++ ',' :: rest)).dropWhile isCSpace = c :: (t ++ ',' :: rest) := by
        simp [List.dropWhile_cons, hsp]
      have h2 : (c :: t).dropWhile isCSpace = c :: t := by
        simp [List.dropWhile_cons, hsp]
      rw [strtol, strtol, h1, h2]
      show (if c = '-' then -(digitsVal (t ++ ',' :: rest) 0 : Int)
          else if c = '+' then (digitsVal (t ++ ',' :: rest) 0 : Int)
          else (digitsVal (c :: (t ++ ',' :: rest)) 0 : Int))
        = (if c = '-' then -(digitsVal t 0 : Int)
          else if c = '+' then (digitsVal t 0 : Int)
          else (digitsVal (c :: t) 0 : Int))
      by_cases hm : c = '-'
      · rw [if_pos hm, if_pos hm, digitsVal_append_comma]
      · by_cases hp : c = '+'
        · rw [if_neg hm, if_neg hm, if_pos hp, if_pos hp, digitsVal_append_comma]
        · rw [if_neg hm, if_neg hm, if_neg hp, if_neg hp]
          exact congrArg (Nat.cast : Nat → Int) (digitsVal_append_comma (c :: t) rest 0)

/-- Searching with `strchr(p, ',')` on a token followed by `,rest` lands
on that comma. -/
theorem dropWhile_ne_comma : ∀ (t rest : List Char), ',' ∉ t →
    (t ++ ',' :: rest).dropWhile (fun c => c != ',') = ',' :: rest := by
  intro t
  induction t with
  | nil =>
    intro rest _
    show (',' :: rest).dropWhile (fun c => c != ',') = ',' :: rest
    simp [List.dropWhile_cons]
  | cons c t ih =>
    intro rest ht
    simp only [List.mem_cons, not_or] at ht
    obtain ⟨hc, ht'⟩ := ht
    show (c :: (t ++ ',' :: rest)).dropWhile (fun c => c != ',') = ',' :: rest
    rw [List.dropWhile_cons, if_pos (by simp [bne_iff_ne]; exact fun h => hc h.symm)]
    exact ih rest ht'

/-- One step of the size loop: a comma-terminated token contributes its
`strtol` value and the loop continues after the comma. -/
theorem sizesLoop_step (f : Nat) (t rest : List Char) (cnt : Nat)
    (ht : ',' ∉ t) (hcnt : cnt < 64) :
    sizesLoop (f + 1) (t ++ ',' :: rest) cnt = strtol t :: sizesLoop f rest (cnt + 1) := by
  simp only [sizesLoop]
  have hif : ¬(t ++ ',' :: rest = [] ∨ 64 ≤ cnt) := by
    rintro (h | h)
    · simp at h
    · omega
  rw [if_neg hif]
  rw [dropWhile_ne_comma t rest ht]
  rw [strtol_append_comma]

/-- The final token (no comma after it) contributes its `strtol` value and
ends the loop. -/
theorem sizesLoop_last (f : Nat) (t : List Char) (cnt : Nat)
    (ht : ',' ∉ t) (hne : t ≠ []) (hcnt : cnt < 64) :
    sizesLoop (f + 1) t cnt = [strtol t] := by
  simp only [sizesLoop]
  have hif : ¬(t = [] ∨ 64 ≤ cnt) := by
    rintro (h | h)
    · exact hne h
    · omega
  rw [if_neg hif]
  have hd : t.dropWhile (fun c => c != ',') = [] := by
    rw [List.dropWhile_eq_nil_iff]
    intro x hx
    simp [bne_iff_ne]
    intro hxc
    exact ht (hxc ▸ hx)
  rw [hd]

/-! ## Claim theorems: configuration resolution -/

/-- C4 counterexample: the claim promises the documented default for every
parameter that is omitted *or empty*; but with an explicit empty string
the run count resolves to 0 (not 3), the output path to the empty path
(not "results_raw.csv"), and the seed to 0 (not 27). -/
theorem C4_counterexample_empty_args_do_not_default :
    resolveRuns [['4'], []] = 0 ∧ (0 : Int) ≠ 3
    ∧ resolveOut [['4'], ['1'], []] = [] ∧ ([] : List Char) ≠ "results_raw.csv".data
    ∧ resolveSeed [['4'], ['1'], ['o'], []] = 0 ∧ (0 : Int) ≠ 27 :=
  ⟨rfl, by decide, rfl, by decide, rfl, by decide⟩

/-- C4 amended: each of the four parameters falls back to its documented
default when omitted; the empty string, however, falls back only for the
size list — an empty run-count or seed argument resolves to
`atoi("") = 0`, and an empty output-path argument resolves to the empty
path. -/
theorem C4_amended_omitted_defaults_empty_only_sizes
    (a1 a2 a3 : List Char) (rest : List (List Char)) :
    (resolveSizes [] = defaultSizes ∧ resolveRuns [] = 3
      ∧ resolveOut [] = "results_raw.csv".data ∧ resolveSeed [] = 27)
    ∧ (resolveRuns [a1] = 3 ∧ resolveOut [a1, a2] = "results_raw.csv".data
      ∧ resolveSeed [a1, a2, a3] = 27)
    ∧ resolveSizes ([] :: rest) = defaultSizes
    ∧ resolveRuns [a1, []] = 0
    ∧ resolveOut [a1, a2, []] = []
    ∧ resolveSeed [a1, a2, a3, []] = 0 :=
  ⟨⟨rfl, rfl, rfl, rfl⟩, ⟨rfl, rfl, rfl⟩, rfl, rfl, rfl, rfl⟩

/-- C5: a supplied non-empty size list is parsed left-to-right as
comma-separated tokens — a comma-terminated token contributes its strtol
value and parsing continues after the comma; the final token likewise;
a non-numeric token contributes 0 ("abc" below) — at most 64 entries are
taken (a 66-token list yields its first 64 entries, the rest silently
dropped), and with no size argument the built-in default list is used. -/
theorem C5_size_list_parsing (s t rest : List Char) (f cnt : Nat)
    (ht : ',' ∉ t) (htne : t ≠ []) (hcnt : cnt < 64) :
    (parseSizes s).length ≤ 64
    ∧ sizesLoop (f + 1) (t ++ ',' :: rest) cnt = strtol t :: sizesLoop f rest (cnt + 1)
    ∧ sizesLoop (f + 1) t cnt = [strtol t]
    ∧ parseSizes "64,128,abc,256".data = [64, 128, 0, 256]
    ∧ parseSizes (commaSevens 65) = List.replicate 64 7
    ∧ resolveSizes [] = defaultSizes := by
  refine ⟨?_, sizesLoop_step f t rest cnt ht hcnt, sizesLoop_last f t cnt ht htne hcnt,
    by decide, by set_option maxRecDepth 40000 in decide, rfl⟩
  show (sizesLoop (s.length + 1) s 0).length ≤ 64
  have := sizesLoop_length (s.length + 1) s 0
  omega

theorem C5_size_list_parsing_witness :
    (',' ∉ ['6'] ∧ ['6'] ≠ ([] : List Char) ∧ (0 : Nat) < 64)
    ∧ ((parseSizes "64".data).length ≤ 64
      ∧ sizesLoop (3 + 1) (['6'] ++ ',' :: ['8']) 0 = strtol ['6'] :: sizesLoop 3 ['8'] (0 + 1)
      ∧ sizesLoop (3 + 1) ['6'] 0 = [strtol ['6']]
      ∧ parseSizes "64,128,abc,256".data = [64, 128, 0, 256]
      ∧ parseSizes (commaSevens 65) = List.replicate 64 7
      ∧ resolveSizes [] = defaultSizes) :=
  ⟨⟨by decide, by decide, by decide⟩,
    C5_size_list_parsing "64".data ['6'] ['8'] 3 0 (by decide) (by decide) (by decide)⟩

end MatrixBench
